import Mathlib

/-!
# Verification of the indentation-structure extractor of `docgen.py`

This file is a shallow embedding, in Lean 4, of the core pipeline of
`docgen.py` (a Python 2 module): `Locator`, the pattern finders built by
`finder(...)`, `sort_items`, `tokenize`, `scan`, `skip_lines`, `tab_match`,
`indents`, `parse_declaration` and `make_tree`.

Modelling conventions:
* Python strings are modelled as `List Char`; `str s` abbreviates `s.data`.
* Python exceptions are modelled with `Except String`; the error string
  names the Python exception raised (`"indentation error"` is the message
  of the `ValueError` raised by `tab_match`, `"IndexError"` is the
  exception raised by `list.pop` / `list[-1]` on an empty list,
  `"TypeError"` the exception raised by subscripting `None`).
* The regular expressions of the finders are translated into executable
  matchers that follow the backtracking search of Python's `re` module:
  the engine tries candidate start positions left to right, a greedy
  star tries one more iteration before exiting, and alternatives are
  tried in the order written in the pattern.  Bounded recursion uses an
  explicit fuel argument that is always called with enough fuel.
* One genuine quirk of the source is modelled faithfully: at module
  level, the Python 2 list comprehension
  `_hidden_magic = ["__{0}__".format(name) for name in _targets.split()]`
  leaks its loop variable, leaving the module global `name = "package"`.
  The function `scan` reads this global (`if name in ["(", "[", "\x7b"]`)
  instead of its loop variable `symbol`.
-/

namespace Docgen

/-- Shorthand turning a Lean string literal into the `List Char` model of a
Python string. -/
def str (s : String) : List Char := s.data

/-- The horizontal whitespace characters of the character class
`[ \t\r\f\v]` used throughout the source's regular expressions. -/
def isHws (c : Char) : Bool :=
  c = ' ' || c = '\t' || c = '\r' || c = '\x0c' || c = '\x0b'

/-- The characters of Python's `\s` class, `[ \t\n\r\f\v]`. -/
def isPySpace (c : Char) : Bool :=
  isHws c || c = '\n'

/-- The identifier characters of the class `[_0-9a-zA-Z]` used by
`parse_declaration`. -/
def isIdentChar (c : Char) : Bool :=
  c = '_' || ('0' ≤ c && c ≤ '9') || ('a' ≤ c && c ≤ 'z') || ('A' ≤ c && c ≤ 'Z')

/-- Python's `text.split("\n")`. -/
def splitNL : List Char → List (List Char)
  | [] => [[]]
  | c :: cs =>
    if c = '\n' then [] :: splitNL cs
    else
      match splitNL cs with
      | [] => [[c]]
      | h :: t => (c :: h) :: t

/-- Python's `"\n".join(lines)`. -/
def joinNL : List (List Char) → List Char
  | [] => []
  | [l] => l
  | l :: ls => l ++ '\n' :: joinNL ls

theorem splitNL_ne_nil (cs : List Char) : splitNL cs ≠ [] := by
  induction cs with
  | nil => simp [splitNL]
  | cons c cs ih =>
    by_cases h : c = '\n' <;> simp [splitNL, h]
    cases hs : splitNL cs <;> simp

theorem joinNL_splitNL (cs : List Char) : joinNL (splitNL cs) = cs := by
  induction cs with
  | nil => rfl
  | cons c cs ih =>
    cases hs : splitNL cs with
    | nil => exact absurd hs (splitNL_ne_nil cs)
    | cons hd t =>
      rw [hs] at ih
      by_cases h : c = '\n'
      · subst h
        cases t <;> simp_all [splitNL, joinNL]
      · cases t <;> simp_all [splitNL, joinNL, h]

/-- The Python slice `lines[a:b]` of a list. -/
def sliceList {α : Type} (l : List α) (a b : Nat) : List α :=
  (l.drop a).take (b - a)

/-!
## Locator (`class Locator`)

`Locator.__init__` builds `self._offsets`, starting with `[0]` and adding
`len(line) + 1` for each line of `text.split("\n")`.
-/

/-- The `self._offsets` table of a `Locator`, as built by `__init__`. -/
def locOffsets (text : List Char) : List Nat :=
  let step := fun (acc : List Nat) (line : List Char) =>
    acc ++ [acc.getLastD 0 + line.length + 1]
  (splitNL text).foldl step [0]

/-- Helper for `locCall`: walk the offsets with the running index and the
previously seen offset, mirroring
`for i, _offset in enumerate(self._offsets): if offset < _offset: ...`. -/
def locGo (offset : Nat) : Nat → Nat → List Nat → Option (Nat × Nat)
  | _, _, [] => none
  | i, prev, o :: rest =>
    if offset < o then some (i - 1, offset - prev)
    else locGo offset (i + 1) o rest

/-- `Locator.__call__(offset)`: the `(lineno, rel_offset)` location of an
absolute offset, or `none` when the loop falls off the table (Python
returns `None`). -/
def locCall (text : List Char) (offset : Nat) : Option (Nat × Nat) :=
  locGo offset 0 0 (locOffsets text)

/-- `Locator.offset(lineno, rel_offset)`:
`sum([len for len in self._offsets[:lineno]] + [rel_offset], 0)`.
Note that the summed values are the *cumulative offsets*, not line
lengths. -/
def locOffset (text : List Char) (lineno rel_offset : Nat) : Nat :=
  ((locOffsets text).take lineno).sum + rel_offset

/-!
## Items and the first-then-longest sorter (`sort_items`)

An item is a `(symbol, start, end)` triple.  `sort_items` sorts a list of
items by the key `(start, -end)` with Python's stable `list.sort`; we use
a stable insertion sort with the same key.
-/

/-- A `(symbol, start, end)` triple. -/
abbrev Item := String × Nat × Nat

/-- `a` may stay before `b` under the first-then-longest key
`(start, -end)`: strictly smaller key, or equal keys (stability). -/
def itemLe (a b : Item) : Bool :=
  decide (a.2.1 < b.2.1) || (decide (a.2.1 = b.2.1) && decide (b.2.2 ≤ a.2.2))

/-- Strictly smaller first-then-longest key. -/
def itemLt (a b : Item) : Prop :=
  a.2.1 < b.2.1 ∨ (a.2.1 = b.2.1 ∧ b.2.2 < a.2.2)

instance (a b : Item) : Decidable (itemLt a b) := by
  unfold itemLt; infer_instance

/-- Stable insertion: `x` goes in front of the first element it compares
`itemLe` to, hence after earlier elements with an equal key. -/
def insertItem (x : Item) : List Item → List Item
  | [] => [x]
  | y :: ys => if itemLe x y then x :: y :: ys else y :: insertItem x ys

/-- `sort_items`: stable sort by `(start ascending, end descending)`. -/
def sortItems : List Item → List Item
  | [] => []
  | x :: xs => insertItem x (sortItems xs)

/-!
## Pattern finders (`finder(...)` instances used by `tokenize`)

Each finder mirrors `pattern.search(text, start)` for its regular
expression: candidate start positions are tried left to right, and at a
candidate the pattern is matched with the backtracking discipline of
Python's `re` (greedy stars take one more iteration before exiting,
alternatives are tried in written order).  Each finder returns the span
of the pattern's single capturing group, which in every pattern of the
source encloses the whole match.
-/

/-- A finder: `(text, start) ↦ (symbol, group_start, group_end)` or
`none`. -/
abbrev Finder := List Char → Nat → Option Item

/-- Try candidate match positions `p, p+1, ...`, returning the first
success of `f` (the engine's left-to-right scan). -/
def scanFrom {α : Type} (f : Nat → Option α) : Nat → Nat → Option α
  | 0, _ => none
  | fuel + 1, p =>
    match f p with
    | some r => some r
    | none => scanFrom f fuel (p + 1)

/-- Length of the run of `[ \t\r\f\v]` characters starting at `p`. -/
def hwsRun (t : List Char) (p : Nat) : Nat :=
  ((t.drop p).takeWhile isHws).length

/-- Does `^` match at `p` under `re.MULTILINE`: start of string or right
after a newline. -/
def lineStart (t : List Char) (p : Nat) : Bool :=
  decide (p = 0) || decide (t.get? (p - 1) = some '\n')

/-- Finder for a bracket symbol: `re.escape(symbol)`, the first literal
occurrence at or after `start`. -/
def litFinder (symbol : String) (c : Char) : Finder := fun t start =>
  ((t.drop start).findIdx? (fun d => d = c)).map
    (fun i => (symbol, start + i, start + i + 1))

/-- Finder for `BLANKLINE`, pattern `(^[ \t\r\f\v]*\n)` with
`re.MULTILINE`: at a line start, a run of horizontal whitespace followed
by a newline. -/
def blanklineFinder : Finder := fun t start =>
  scanFrom
    (fun p =>
      let k := hwsRun t p
      if lineStart t p ∧ t.get? (p + k) = some '\n' then
        some ("BLANKLINE", p, p + k + 1)
      else none)
    (t.length + 1 - start) start

/-- End of a comment paragraph starting at `pos` (which carries
`[ \t\r\f\v]*#` at its head): consume `.*\n?` and then further
`[ \t\r\f\v]*#.*\n?` lines while they keep matching. -/
def commentEnd (t : List Char) : Nat → Nat → Nat
  | 0, pos => pos
  | fuel + 1, pos =>
    let k := hwsRun t pos
    if t.get? (pos + k) = some '#' then
      match (t.drop (pos + k)).findIdx? (fun d => d = '\n') with
      | none => t.length
      | some j => commentEnd t fuel (pos + k + j + 1)
    else pos

/-- Finder for `COMMENT`, pattern
`([ \t\r\f\v]*#.*\n?(?:[ \t\r\f\v]*#.*\n?)*)`: the first position whose
horizontal-whitespace run is followed by `#`, extended over consecutive
comment lines. -/
def commentFinder : Finder := fun t start =>
  scanFrom
    (fun p =>
      if t.get? (p + hwsRun t p) = some '#' then
        some ("COMMENT", p, commentEnd t (t.length + 1) p)
      else none)
    (t.length + 1 - start) start

/-- Finder for `LINECONT`, pattern `(\\\n)`. -/
def linecontFinder : Finder := fun t start =>
  scanFrom
    (fun p =>
      if t.get? p = some '\\' ∧ t.get? (p + 1) = some '\n' then
        some ("LINECONT", p, p + 2)
      else none)
    (t.length + 1 - start) start

/-- Backtracking continuation of `"(?:[^\x22]|\\\x22)*"` after the opening
quote: alternatives in written order, greedy star, then the closing
quote.  Returns the end of the whole match. -/
def dq1Rest (t : List Char) : Nat → Nat → Option Nat
  | 0, _ => none
  | fuel + 1, i =>
    (match t.get? i with
     | some c => if c ≠ '"' then dq1Rest t fuel (i + 1) else none
     | none => none).orElse fun _ =>
    (if t.get? i = some '\\' ∧ t.get? (i + 1) = some '"' then
        dq1Rest t fuel (i + 2)
     else none).orElse fun _ =>
    if t.get? i = some '"' then some (i + 1) else none

/-- Finder for the single-double-quote `STRING` pattern
`("(?:[^\x22]|\\\x22)*")`. -/
def dq1Finder : Finder := fun t start =>
  scanFrom
    (fun p =>
      if t.get? p = some '"' then
        (dq1Rest t (t.length + 2) (p + 1)).map (fun e => ("STRING", p, e))
      else none)
    (t.length + 1 - start) start

/-- Backtracking continuation of
`(?:[^\x22]|\\\x22|\x22{1,2}(?!\x22))*"""` after the opening `"""`. -/
def dq3Rest (t : List Char) : Nat → Nat → Option Nat
  | 0, _ => none
  | fuel + 1, i =>
    (match t.get? i with
     | some c => if c ≠ '"' then dq3Rest t fuel (i + 1) else none
     | none => none).orElse fun _ =>
    (if t.get? i = some '\\' ∧ t.get? (i + 1) = some '"' then
        dq3Rest t fuel (i + 2)
     else none).orElse fun _ =>
    (if t.get? i = some '"' ∧ t.get? (i + 1) = some '"' ∧
        ¬ t.get? (i + 2) = some '"' then
        dq3Rest t fuel (i + 2)
     else none).orElse fun _ =>
    (if t.get? i = some '"' ∧ ¬ t.get? (i + 1) = some '"' then
        dq3Rest t fuel (i + 1)
     else none).orElse fun _ =>
    if t.get? i = some '"' ∧ t.get? (i + 1) = some '"' ∧
        t.get? (i + 2) = some '"' then
      some (i + 3)
    else none

/-- Finder for the triple-double-quote `STRING` pattern. -/
def dq3Finder : Finder := fun t start =>
  scanFrom
    (fun p =>
      if t.get? p = some '"' ∧ t.get? (p + 1) = some '"' ∧
          t.get? (p + 2) = some '"' then
        (dq3Rest t (t.length + 2) (p + 3)).map (fun e => ("STRING", p, e))
      else none)
    (t.length + 1 - start) start

/-- Backtracking continuation of `(?: [^']|\\')*'` after the opening
quote.  Note the pattern's first alternative really is a *space followed
by a non-quote*, exactly as written in the source. -/
def sq1Rest (t : List Char) : Nat → Nat → Option Nat
  | 0, _ => none
  | fuel + 1, i =>
    (if t.get? i = some ' ' then
        match t.get? (i + 1) with
        | some c => if c ≠ '\'' then sq1Rest t fuel (i + 2) else none
        | none => none
     else none).orElse fun _ =>
    (if t.get? i = some '\\' ∧ t.get? (i + 1) = some '\'' then
        sq1Rest t fuel (i + 2)
     else none).orElse fun _ =>
    if t.get? i = some '\'' then some (i + 1) else none

/-- Finder for the single-single-quote `STRING` pattern
`('(?: [^']|\\')*')`. -/
def sq1Finder : Finder := fun t start =>
  scanFrom
    (fun p =>
      if t.get? p = some '\'' then
        (sq1Rest t (t.length + 2) (p + 1)).map (fun e => ("STRING", p, e))
      else none)
    (t.length + 1 - start) start

/-- Backtracking continuation of
`(?:[^']|\\'|'{1,2}(?!'))*'''` after the opening `'''`. -/
def sq3Rest (t : List Char) : Nat → Nat → Option Nat
  | 0, _ => none
  | fuel + 1, i =>
    (match t.get? i with
     | some c => if c ≠ '\'' then sq3Rest t fuel (i + 1) else none
     | none => none).orElse fun _ =>
    (if t.get? i = some '\\' ∧ t.get? (i + 1) = some '\'' then
        sq3Rest t fuel (i + 2)
     else none).orElse fun _ =>
    (if t.get? i = some '\'' ∧ t.get? (i + 1) = some '\'' ∧
        ¬ t.get? (i + 2) = some '\'' then
        sq3Rest t fuel (i + 2)
     else none).orElse fun _ =>
    (if t.get? i = some '\'' ∧ ¬ t.get? (i + 1) = some '\'' then
        sq3Rest t fuel (i + 1)
     else none).orElse fun _ =>
    if t.get? i = some '\'' ∧ t.get? (i + 1) = some '\'' ∧
        t.get? (i + 2) = some '\'' then
      some (i + 3)
    else none

/-- Finder for the triple-single-quote `STRING` pattern. -/
def sq3Finder : Finder := fun t start =>
  scanFrom
    (fun p =>
      if t.get? p = some '\'' ∧ t.get? (p + 1) = some '\'' ∧
          t.get? (p + 2) = some '\'' then
        (sq3Rest t (t.length + 2) (p + 3)).map (fun e => ("STRING", p, e))
      else none)
    (t.length + 1 - start) start

/-!
## Tokenizer (`tokenize`)
-/

/-- The finder list built inside `tokenize`, in registration order. -/
def standardFinders : List Finder :=
  [litFinder "(" '(', litFinder "[" '[', litFinder "\x7b" '{',
   litFinder ")" ')', litFinder "]" ']', litFinder "\x7d" '}',
   blanklineFinder, commentFinder, linecontFinder,
   dq1Finder, dq3Finder, sq1Finder, sq3Finder]

/-- The `while start < len(text)` loop of `tokenize`: collect every
finder's next match, sort first-then-longest, emit the winner and move
the cursor to its end; stop when no finder matches. -/
def tokGo (fs : List Finder) (t : List Char) : Nat → Nat → List Item
  | 0, _ => []
  | fuel + 1, start =>
    if start < t.length then
      let results := fs.filterMap (fun f => f t start)
      match sortItems results with
      | [] => []
      | r :: _ => r :: tokGo fs t fuel r.2.2
    else []

/-- Unfolding equation for one step of the tokenizer loop. -/
theorem tokGo_succ (fs : List Finder) (t : List Char) (fuel start : Nat) :
    tokGo fs t (fuel + 1) start =
      if start < t.length then
        match sortItems (fs.filterMap (fun f => f t start)) with
        | [] => []
        | r :: _ => r :: tokGo fs t fuel r.2.2
      else [] := rfl

/-- `tokenize`, parameterised by the finder list (the source builds
`standardFinders`; the parameter lets us state order-independence). -/
def tokenizeWith (fs : List Finder) (t : List Char) : List Item :=
  tokGo fs t (t.length + 1) 0

/-- `tokenize(text)`. -/
def tokenize (t : List Char) : List Item :=
  tokenizeWith standardFinders t

/-!
## Bracket matcher (`scan`)

At module level the Python 2 list comprehension
`_hidden_magic = ["__{0}__".format(name) for name in _targets.split()]`
(line 315 of the source) leaks its loop variable into the module's
globals, leaving `name = "package"` (the last word of `_targets`).
`scan`'s first branch tests `if name in ["(", "[", "\x7b"]` — the leaked
global, not the loop variable `symbol` — so the condition is constantly
false: nothing is ever pushed on `wait_for` and every atom is emitted
unchanged.
-/

/-- The module-global `name` left behind by the line-315 comprehension. -/
def leakedName : String := "package"

/-- The `match` dict of `scan`; total with a junk default, which is never
consulted because the only branches using it are unreachable (see
`leakedName`). -/
def matchSym : String → String
  | "(" => ")"
  | "[" => "]"
  | "\x7b" => "\x7d"
  | ")" => "("
  | "]" => "["
  | "\x7d" => "\x7b"
  | _ => ""

/-- The scanning loop of `scan` over the token stream, carrying the
`wait_for` stack of `(expected_close, start)` pairs. -/
def scanGo : List Item → List (String × Nat) → List Item
  | [], _ => []
  | (symbol, s, e) :: rest, wait_for =>
    if leakedName ∈ ["(", "[", "\x7b"] then
      scanGo rest ((matchSym symbol, s) :: wait_for)
    else
      match wait_for with
      | (w, ws) :: wrest =>
        if symbol = w then
          (matchSym symbol ++ symbol, ws, e) :: scanGo rest wrest
        else (symbol, s, e) :: scanGo rest wait_for
      | [] => (symbol, s, e) :: scanGo rest wait_for

/-- `scan(text)`: run the matching loop over `tokenize(text)` and sort
the collected items. -/
def scan (t : List Char) : List Item :=
  sortItems (scanGo (tokenize t) [])

/-!
## Line suppressor (`skip_lines`)
-/

/-- The suppressed lines contributed by one scanned atom, following the
four `if` statements of `skip_lines`.  `List.range' a n` is
`[a, a+1, ..., a+n-1]`; the counts use truncated subtraction exactly
where Python's `range` would come out empty. -/
def contribution (symbol : String) (sl el : Nat × Nat) : List Nat :=
  (if symbol = "BLANKLINE" then [sl.1] else []) ++
  (if symbol = "COMMENT" then
    let startLine := sl.1 + (if sl.2 ≠ 0 then 1 else 0)
    List.range' startLine (el.1 - startLine)
   else []) ++
  (if symbol = "LINECONT" then [sl.1 + 1] else []) ++
  (if symbol ∈ ["()", "[]", "{}", "STRING"] then
    List.range' (sl.1 + 1) (el.1 - sl.1)
   else [])

/-- The loop of `skip_lines` over the scanned atoms; `none` models the
`TypeError` Python would raise if `locator(...)` returned `None`. -/
def skipGo (t : List Char) : List Item → Option (List Nat)
  | [] => some []
  | (symbol, s, e) :: rest => do
    let sl ← locCall t s
    let el ← locCall t e
    let ls ← skipGo t rest
    some (contribution symbol sl el ++ ls)

/-- `skip_lines(text)` (as the list of suppressed lines; Python wraps it
in `set`, and only membership is ever used). -/
def skipLines (t : List Char) : Option (List Nat) :=
  skipGo t (scan t)

/-!
## Indentation analyzer (`tab_match`, `indents`)
-/

/-- The `while _tabs:` loop of `tab_match`: pop tabs from the front while
each is a prefix of the remaining line, returning the matched tabs and
the rest of the line. -/
def tabLoop : List Char → List (List Char) → List (List Char) × List Char
  | line, [] => ([], line)
  | line, tab :: rest =>
    if tab.isPrefixOf line then
      let m := tabLoop (line.drop tab.length) rest
      (tab :: m.1, m.2)
    else ([], line)

/-- `tab_search`: `re.compile("^[ \t\r\f\v]+", re.MULTILINE).search` on
the remaining line; returns the matched whitespace run. -/
def tabSearch (t : List Char) : Option (List Char) :=
  scanFrom
    (fun p =>
      if lineStart t p ∧ 0 < hwsRun t p then
        some ((t.drop p).takeWhile isHws)
      else none)
    (t.length + 1) 0

/-- Python truthiness of the optional `extra` string: `None` and the
empty string are falsy. -/
def pyFalsy : Option (List Char) → Bool
  | some (_ :: _) => false
  | _ => true

/-- `tab_match(line, tabs)`: the matched tab prefix and the extra
whitespace, or the `ValueError("indentation error")` raised when the tab
stack matched only partially and extra whitespace follows. -/
def tab_match (line : List Char) (tabs : List (List Char)) :
    Except String (List (List Char) × Option (List Char)) :=
  let m := tabLoop line tabs
  let extra := tabSearch m.2
  if m.1 = tabs ∨ pyFalsy extra then Except.ok (m.1, extra)
  else Except.error "indentation error"

/-- The per-line loop of `indents`, carrying the line index and the tab
stack. -/
def indentsGo (skip : List Nat) : Nat → List (List Char) → List (List Char) →
    Except String (List (Nat × Int))
  | _, [], _ => Except.ok []
  | i, line :: rest, tabs =>
    if i ∈ skip then indentsGo skip (i + 1) rest tabs
    else do
      let me ← tab_match line tabs
      match me.2 with
      | some (c :: cs) =>
        let evs ← indentsGo skip (i + 1) rest (tabs ++ [c :: cs])
        Except.ok ((i, 1) :: evs)
      | _ =>
        let evs ← indentsGo skip (i + 1) rest (tabs.take me.1.length)
        Except.ok ((i, (me.1.length : Int) - (tabs.length : Int)) :: evs)

/-- `indents(text)`: the `(lineno, delta)` events of the non-suppressed
lines.  A `none` from `skip_lines` would surface as Python's
`TypeError`. -/
def indents (t : List Char) : Except String (List (Nat × Int)) :=
  match skipLines t with
  | none => Except.error "TypeError"
  | some skip => indentsGo skip 0 (splitNL t) []

/-!
## Declaration classifier (`parse_declaration`)

The three anchored regular expressions are translated into direct
matchers; each pattern's backtracking is deterministic (the alternatives
of `c?p?def` and `(?:cdef)?` are mutually exclusive prefixes, and the
greedy character-class runs allow no shorter successful match).
-/

/-- Length of the run of `\s` characters starting at `p`. -/
def wsRun (t : List Char) (p : Nat) : Nat :=
  ((t.drop p).takeWhile isPySpace).length

/-- Length of the run of `[_0-9a-zA-Z]` characters starting at `p`. -/
def identRun (t : List Char) (p : Nat) : Nat :=
  ((t.drop p).takeWhile isIdentChar).length

/-- Is the string `s` present in `l` at position `i`? -/
def prefixAt (l : List Char) (i : Nat) (s : String) : Bool :=
  s.data.isPrefixOf (l.drop i)

/-- The `function` finder: `^\s*c?p?def\s+([_0-9a-zA-Z]+)\s*\(`. -/
def findFunction (line : List Char) : Option Item :=
  let i := wsRun line 0
  let j :=
    if prefixAt line i "cpdef" then some (i + 5)
    else if prefixAt line i "cdef" then some (i + 4)
    else if prefixAt line i "pdef" then some (i + 4)
    else if prefixAt line i "def" then some (i + 3)
    else none
  match j with
  | none => none
  | some j =>
    let w := wsRun line j
    if w = 0 then none
    else
      let gs := j + w
      let k := identRun line gs
      if k = 0 then none
      else
        let ge := gs + k
        if line.get? (ge + wsRun line ge) = some '(' then
          some ("function", gs, ge)
        else none

/-- The `assignment` finder: `^\s*([_0-9a-zA-Z]+)\s*=\s*`. -/
def findAssignment (line : List Char) : Option Item :=
  let i := wsRun line 0
  let k := identRun line i
  if k = 0 then none
  else
    let ge := i + k
    if line.get? (ge + wsRun line ge) = some '=' then
      some ("assignment", i, ge)
    else none

/-- The `class` finder: `^\s*(?:cdef)?\s*class\s+([_0-9a-zA-Z]+)`. -/
def findClass (line : List Char) : Option Item :=
  let i := wsRun line 0
  let j := if prefixAt line i "cdef" then i + 4 else i
  let j2 := j + wsRun line j
  if prefixAt line j2 "class" then
    let j3 := j2 + 5
    let w := wsRun line j3
    if w = 0 then none
    else
      let gs := j3 + w
      let k := identRun line gs
      if k = 0 then none else some ("class", gs, gs + k)
  else none

/-- `parse_declaration(line)`: run the three finders, sort their matches
first-then-longest, and return the winner's kind and the captured
identifier (the slice `line[start:end]`), or `(None, None)`. -/
def parse_declaration (line : List Char) : Option String × Option (List Char) :=
  let results := [findFunction line, findAssignment line, findClass line].filterMap id
  match sortItems results with
  | [] => (none, none)
  | (symbol, s, e) :: _ => (some symbol, some (sliceList line s e))

/-!
## Tree builder (`make_tree`)
-/

/-- The `Info` record of a tree node: `lineno`, `name`, `type` and the
`source` slice (assigned during the loop; initialised empty). -/
structure Info where
  lineno : Nat
  name : Option (List Char)
  type : Option String
  source : List Char
deriving Repr

/-- A finished tree node `(info, children)`. -/
inductive Node where
  | mk (info : Info) (children : List Node)
deriving Repr

/-- The `info` component of a node. -/
def Node.info : Node → Info
  | mk i _ => i

/-- The `children` component of a node. -/
def Node.children : Node → List Node
  | mk _ cs => cs

/-- An in-progress stack entry of `make_tree`: the `Info` and the
children collected so far. -/
abbrev StackItem := Info × List Node

/-- One `fold()`: pop the top item and append it as last child of the
item below. -/
def attach (t u : StackItem) : StackItem :=
  (u.1, u.2 ++ [Node.mk t.1 t.2])

/-- `n` successive `fold()` calls; `IndexError` models popping from (or
indexing) an exhausted stack. -/
def foldN : Nat → List StackItem → Except String (List StackItem)
  | 0, s => Except.ok s
  | n + 1, t :: u :: rest => foldN n (attach t u :: rest)
  | _ + 1, _ => Except.error "IndexError"

/-- The dedent fold phase of one event:
`if tab <= 0 and len(items) >= 2: for _ in range(-tab + 1): fold()`. -/
def dedentFolds (tab : Int) (s : List StackItem) :
    Except String (List StackItem) :=
  if tab ≤ 0 ∧ 2 ≤ s.length then foldN (1 - tab).toNat s else Except.ok s

/-- `item[0].source = text` on the current (top) item. -/
def setTopSource (src : List Char) : List StackItem → List StackItem
  | [] => []
  | (i, cs) :: rest => ({ i with source := src }, cs) :: rest

/-- The closing `while len(items) >= 2: fold()` loop, starting from the
top item and the rest of the stack. -/
def foldAll : StackItem → List StackItem → Node
  | t, [] => Node.mk t.1 t.2
  | t, u :: rest => foldAll (attach t u) rest

/-- The event loop of `make_tree` over the `indents` events, followed by
the trailing source assignment and the closing folds. -/
def makeTreeGo (lines : List (List Char)) :
    List (Nat × Int) → Nat → List StackItem → Except String Node
  | [], prev, s =>
    match setTopSource (joinNL (sliceList lines prev lines.length)) s with
    | [] => Except.error "IndexError"
    | t :: rest => Except.ok (foldAll t rest)
  | (l, tab) :: evs, prev, s => do
    let s1 := setTopSource (joinNL (sliceList lines prev l)) s
    let d := parse_declaration (lines.getD l [])
    let s2 ← dedentFolds tab s1
    makeTreeGo lines evs l ((⟨l, d.2, d.1, []⟩, []) :: s2)

/-- `make_tree(text)`. -/
def make_tree (t : List Char) : Except String Node := do
  let evs ← indents t
  makeTreeGo (splitNL t) evs 0 [(⟨0, none, none, []⟩, [])]

/-!
## Document (pre-)order traversal
-/

mutual

/-- The document (pre-)order list of `Info`s of a tree. -/
def preorder : Node → List Info
  | Node.mk i cs => i :: preorderList cs

/-- Pre-order traversal of a forest, left to right. -/
def preorderList : List Node → List Info
  | [] => []
  | n :: ns => preorder n ++ preorderList ns

end

/-- Concatenating, in document order, every node's `source` slice. -/
def concatSources (t : Node) : List Char :=
  ((preorder t).map Info.source).flatten

/-!
## Lemmas about the first-then-longest sorter
-/

theorem itemLe_refl (a : Item) : itemLe a a = true := by
  simp [itemLe]

theorem itemLe_of_itemLt {a b : Item} (h : itemLt a b) : itemLe a b = true := by
  rcases h with h | ⟨h1, h2⟩
  · simp [itemLe, h]
  · simp [itemLe, h1]; omega

theorem not_itemLe_of_itemLt {a b : Item} (h : itemLt a b) :
    itemLe b a = false := by
  rcases h with h | ⟨h1, h2⟩ <;> simp [itemLe] <;> omega

theorem mem_insertItem {x y : Item} : ∀ {l : List Item},
    y ∈ insertItem x l ↔ y = x ∨ y ∈ l := by
  intro l
  induction l with
  | nil => simp [insertItem]
  | cons a t ih =>
    by_cases h : itemLe x a = true
    · simp [insertItem, h]
    · simp only [insertItem, h]
      simp only [Bool.false_eq_true, if_false, List.mem_cons, ih]
      tauto

theorem mem_sortItems {y : Item} : ∀ {l : List Item},
    y ∈ sortItems l ↔ y ∈ l := by
  intro l
  induction l with
  | nil => simp [sortItems]
  | cons a t ih =>
    simp only [sortItems, mem_insertItem, ih, List.mem_cons]

/-- If `m` occurs in `l` and every other element has a strictly larger
first-then-longest key, then the stable sort puts `m` first. -/
theorem sortItems_cons_min : ∀ (l : List Item) (m : Item), m ∈ l →
    (∀ y ∈ l, y = m ∨ itemLt m y) → ∃ rest, sortItems l = m :: rest := by
  intro l
  induction l with
  | nil => intro m hm; cases hm
  | cons a t ih =>
    intro m hm hmin
    by_cases hma : m = a
    · subst hma
      cases hs : sortItems t with
      | nil => exact ⟨[], by simp [sortItems, hs, insertItem]⟩
      | cons b bs =>
        have hb : b ∈ t := by
          have hbs : b ∈ sortItems t := by rw [hs]; exact List.mem_cons_self _ _
          exact mem_sortItems.1 hbs
        have hle : itemLe m b = true := by
          rcases hmin b (List.mem_cons_of_mem _ hb) with h | h
          · rw [h]; exact itemLe_refl m
          · exact itemLe_of_itemLt h
        exact ⟨b :: bs, by simp [sortItems, hs, insertItem, hle]⟩
    · have hmt : m ∈ t := by
        rcases List.mem_cons.1 hm with h | h
        · exact absurd h hma
        · exact h
      obtain ⟨bs, hbs⟩ := ih m hmt (fun y hy => hmin y (List.mem_cons_of_mem _ hy))
      have hlt : itemLt m a := by
        rcases hmin a (List.mem_cons_self _ _) with h | h
        · exact absurd h.symm hma
        · exact h
      have hnle : itemLe a m = false := not_itemLe_of_itemLt hlt
      refine ⟨insertItem a bs, ?_⟩
      simp [sortItems, hbs, insertItem, hnle]

/-!
## C5: first-then-longest determinism of the Tokenizer
-/

/-- The 13 finders of `tokenize`, each evaluated on `"""a#b"""` from
offset 0. -/
theorem standardFinders_eval :
    standardFinders.map (fun f => f (str "\"\"\"a#b\"\"\"") 0) =
      [none, none, none, none, none, none, none,
       some ("COMMENT", 4, 9), none,
       some ("STRING", 0, 2), some ("STRING", 0, 9), none, none] := by
  decide

theorem dq3Finder_mem_standardFinders : dq3Finder ∈ standardFinders := by
  unfold standardFinders
  exact List.mem_cons_of_mem _ (List.mem_cons_of_mem _ (List.mem_cons_of_mem _
    (List.mem_cons_of_mem _ (List.mem_cons_of_mem _ (List.mem_cons_of_mem _
    (List.mem_cons_of_mem _ (List.mem_cons_of_mem _ (List.mem_cons_of_mem _
    (List.mem_cons_of_mem _ (List.mem_cons_self _ _))))))))))

/-- **C5** — At each Tokenizer step the emitted atom is the winner under
`(start ascending, end descending)`; on the text `"""a#b"""` the STRING
atom `(0, 9)` beats the interior COMMENT-looking match `(4, 9)` and the
short STRING match `(0, 2)`, for every permutation of the finder
registration order. -/
theorem tokenizer_first_then_longest (fs : List Finder)
    (hperm : fs.Perm standardFinders) :
    tokenizeWith fs (str "\"\"\"a#b\"\"\"") = [("STRING", 0, 9)] := by
  have hmem : ("STRING", 0, 9) ∈
      fs.filterMap (fun f => f (str "\"\"\"a#b\"\"\"") 0) := by
    refine List.mem_filterMap.2 ⟨dq3Finder, hperm.mem_iff.2 dq3Finder_mem_standardFinders, ?_⟩
    decide
  have hall : ∀ y ∈ fs.filterMap (fun f => f (str "\"\"\"a#b\"\"\"") 0),
      y = ("STRING", 0, 9) ∨ itemLt ("STRING", 0, 9) y := by
    intro y hy
    obtain ⟨f, hf, heval⟩ := List.mem_filterMap.1 hy
    have hf2 : f ∈ standardFinders := hperm.mem_iff.1 hf
    have hv : f (str "\"\"\"a#b\"\"\"") 0 ∈
        standardFinders.map (fun g => g (str "\"\"\"a#b\"\"\"") 0) :=
      List.mem_map_of_mem _ hf2
    rw [standardFinders_eval, heval] at hv
    simp only [List.mem_cons, List.not_mem_nil, or_false,
      reduceCtorEq, false_or, Option.some.injEq] at hv
    rcases hv with rfl | rfl | rfl
    · right; decide
    · right; decide
    · left; rfl
  obtain ⟨rest, hsort⟩ :=
    sortItems_cons_min _ ("STRING", 0, 9) hmem hall
  show tokGo fs (str "\"\"\"a#b\"\"\"") ((str "\"\"\"a#b\"\"\"").length + 1) 0 =
    [("STRING", 0, 9)]
  rw [show (str "\"\"\"a#b\"\"\"").length + 1 = 9 + 1 from rfl]
  rw [tokGo_succ, if_pos (by decide), hsort]
  show ("STRING", 0, 9) :: tokGo fs (str "\"\"\"a#b\"\"\"") 9 9 = _
  rw [show (9 : Nat) = 8 + 1 from rfl]
  rw [tokGo_succ, if_neg (by decide)]

/-- Witness for C5 at the source's own registration order. -/
theorem tokenizer_first_then_longest_witness :
    tokenizeWith standardFinders (str "\"\"\"a#b\"\"\"") = [("STRING", 0, 9)] :=
  tokenizer_first_then_longest standardFinders (List.Perm.refl _)

/-!
## C1: the bracket matcher never pushes, merges nothing, never aborts
-/

/-- **C1** (code bug) — on `"()"` the claim (and `scan`'s docstring)
expect a single merged atom `("()", 0, 2)`; because `scan` tests the
leaked global `name` instead of its loop variable `symbol`, the open
atom is never pushed and both atoms pass through unchanged. -/
theorem scan_brackets_pass_through_unmatched :
    scan (str "()") = [("(", 0, 1), (")", 1, 2)] := by decide

/-!
## C7: the Locator's two mappings are not mutually inverse
-/

/-- **C7** (code bug) — on `"ab\ncd"` the offsets table is `[0, 3, 6]`
and `to_line_col 3 = (1, 0)`, but `to_offset(1, 0)` returns `0`, not
`offsets[1] + 0 = 3`: `Locator.offset` sums the cumulative offsets
`_offsets[:lineno]` instead of line lengths, so the round trip fails. -/
theorem locator_offset_not_inverse :
    locOffsets (str "ab\ncd") = [0, 3, 6] ∧
    locCall (str "ab\ncd") 3 = some (1, 0) ∧
    locOffset (str "ab\ncd") 1 0 = 0 := by decide

/-!
## C8: STRING atoms do not cover escaped-quote or single-quoted literals
-/

/-- **C8** (code bug) — the claim says the Tokenizer emits a STRING atom
covering any single- or triple-quoted literal of either quoting
convention, tolerating escaped quotes.  In the code the `\\"` and `\\'`
alternatives are shadowed by `[^"]`/`[^']` under backtracking and the
single-quote pattern contains a stray space, so `'ab'` produces no atom
at all and `"a\"b"` produces a STRING atom ending at the escaped quote
(span `(0, 4)` instead of `(0, 6)`). -/
theorem tokenizer_escaped_quotes_mishandled :
    tokenize (str "'ab'") = [] ∧
    tokenize (str "\"a\\\"b\"") = [("STRING", 0, 4)] := by decide

/-!
## C10: make_tree pops the root and raises IndexError
-/

/-- **C10** — on `"    x = 1\ny = 2\n"` the first event has delta `+1`
and the second dedents to column zero with delta `-1`; the fold loop
performs `1 - (-1) = 2` folds on a stack of two items, popping the root
and then indexing the empty list: `make_tree` raises an uncaught
`IndexError` instead of returning a tree. -/
theorem make_tree_pops_root_index_error :
    make_tree (str "    x = 1\ny = 2\n") = Except.error "IndexError" := rfl

/-!
## C4: when the indentation analyzer signals an error

The claim's condition is restated independently of the implementation:
the *largest* prefix of the tab stack whose concatenation starts the
line (rather than `tab_match`'s one-at-a-time greedy loop), and "extra
non-matching whitespace after the divergence" as the residual line
beginning with a horizontal-whitespace character.
-/

/-- Does the list start with a horizontal-whitespace character? -/
def startsWithHws : List Char → Bool
  | c :: _ => isHws c
  | [] => false

/-- Spec reading: the largest `k` such that the concatenation of the
first `k` stack entries is a prefix of the line. -/
def specMatchedCount (line : List Char) (tabs : List (List Char)) : Nat :=
  Nat.findGreatest (fun k => ((tabs.take k).flatten).isPrefixOf line = true)
    tabs.length

/-- Spec reading: what is left of the line after the matched prefix. -/
def specResidual (line : List Char) (tabs : List (List Char)) : List Char :=
  line.drop ((tabs.take (specMatchedCount line tabs)).flatten).length

/-- Spec reading of outcome (c): the stack matches only partially, yet
extra whitespace remains after the divergence. -/
def specIndentFailure (line : List Char) (tabs : List (List Char)) : Prop :=
  specMatchedCount line tabs ≠ tabs.length ∧
    startsWithHws (specResidual line tabs) = true

instance (line : List Char) (tabs : List (List Char)) :
    Decidable (specIndentFailure line tabs) := by
  unfold specIndentFailure; infer_instance

theorem isPrefixOf_iff : ∀ (a l : List Char),
    a.isPrefixOf l = true ↔ ∃ t2, l = a ++ t2 := by
  intro a
  induction a with
  | nil => intro l; simp [List.isPrefixOf]
  | cons c a ih =>
    intro l
    cases l with
    | nil => simp [List.isPrefixOf]
    | cons d l =>
      simp only [List.isPrefixOf, Bool.and_eq_true, beq_iff_eq, ih,
        List.cons_append, List.cons.injEq]
      constructor
      · rintro ⟨rfl, t2, rfl⟩; exact ⟨t2, rfl, rfl⟩
      · rintro ⟨t2, rfl, rfl⟩; exact ⟨rfl, t2, rfl⟩

theorem prefix_append_iff (a b l : List Char) :
    (a ++ b).isPrefixOf l = true ↔
      a.isPrefixOf l = true ∧ b.isPrefixOf (l.drop a.length) = true := by
  simp only [isPrefixOf_iff]
  constructor
  · rintro ⟨t2, rfl⟩
    exact ⟨⟨b ++ t2, by simp⟩, ⟨t2, by simp⟩⟩
  · rintro ⟨⟨t1, rfl⟩, ⟨t2, h2⟩⟩
    refine ⟨t2, ?_⟩
    have hd : (a ++ t1).drop a.length = t1 := by simp
    rw [hd] at h2
    rw [h2, List.append_assoc]

/-- The greedy loop of `tab_match` matches an initial segment of the tab
stack, its length is the spec's largest matching prefix, no longer
prefix matches, and the residual is the line after the matched part. -/
theorem tabLoop_props : ∀ (tabs : List (List Char)) (line : List Char),
    (tabLoop line tabs).1 = tabs.take (tabLoop line tabs).1.length ∧
    (tabLoop line tabs).1.length ≤ tabs.length ∧
    ((tabs.take (tabLoop line tabs).1.length).flatten).isPrefixOf line = true ∧
    (∀ k, (tabLoop line tabs).1.length < k → k ≤ tabs.length →
      ¬ ((tabs.take k).flatten).isPrefixOf line = true) ∧
    (tabLoop line tabs).2 = line.drop ((tabLoop line tabs).1.flatten).length := by
  intro tabs
  induction tabs with
  | nil =>
    intro line
    refine ⟨rfl, Nat.le_refl _, by simp [List.isPrefixOf], ?_, by simp [tabLoop]⟩
    intro k h1 h2
    simp only [tabLoop, List.length_nil] at h1 h2
    omega
  | cons tb rest ih =>
    intro line
    by_cases htb : tb.isPrefixOf line = true
    · have hstep : tabLoop line (tb :: rest) =
          (tb :: (tabLoop (line.drop tb.length) rest).1,
           (tabLoop (line.drop tb.length) rest).2) := by
        simp [tabLoop, htb]
      obtain ⟨ih1, ih2, ih3, ih4, ih5⟩ := ih (line.drop tb.length)
      rw [hstep]
      refine ⟨?_, by simp; omega, ?_, ?_, ?_⟩
      · rw [List.length_cons, List.take_succ_cons]
        exact congrArg (List.cons tb) ih1
      · simp only [List.length_cons, List.take_succ_cons, List.flatten_cons]
        rw [prefix_append_iff]
        exact ⟨htb, ih3⟩
      · intro k hk1 hk2
        simp only [List.length_cons] at hk1 hk2 ⊢
        match k, hk1 with
        | k + 1, hk1 =>
          simp only [List.take_succ_cons, List.flatten_cons]
          rw [prefix_append_iff]
          rintro ⟨-, hbad⟩
          exact ih4 k (by omega) (by omega) hbad
      · simp only [List.flatten_cons, List.length_append, ih5,
          List.drop_drop]
    · have hstep : tabLoop line (tb :: rest) = ([], line) := by
        simp [tabLoop, htb]
      rw [hstep]
      refine ⟨rfl, by simp, by simp [List.isPrefixOf], ?_, by simp⟩
      intro k hk1 hk2
      match k, hk1 with
      | k + 1, _ =>
        simp only [List.take_succ_cons, List.flatten_cons]
        rw [prefix_append_iff]
        rintro ⟨hbad, -⟩
        exact htb hbad

/-- The greedy matched count equals the spec's largest-prefix count. -/
theorem tabLoop_length_eq_spec (line : List Char) (tabs : List (List Char)) :
    (tabLoop line tabs).1.length = specMatchedCount line tabs := by
  obtain ⟨h1, h2, h3, h4, h5⟩ := tabLoop_props tabs line
  symm
  rw [specMatchedCount, Nat.findGreatest_eq_iff]
  exact ⟨h2, fun _ => h3, fun n hn1 hn2 => h4 n hn1 hn2⟩

/-- The residual of the greedy loop is the spec residual. -/
theorem tabLoop_residual_eq_spec (line : List Char) (tabs : List (List Char)) :
    (tabLoop line tabs).2 = specResidual line tabs := by
  obtain ⟨h1, h2, h3, h4, h5⟩ := tabLoop_props tabs line
  rw [h5, specResidual, ← tabLoop_length_eq_spec, ← h1]

/-- If no match function fires at any position from `p` on, the engine
scan returns `none`. -/
theorem scanFrom_none {α : Type} (f : Nat → Option α) :
    ∀ (fuel p : Nat), (∀ q, p ≤ q → f q = none) → scanFrom f fuel p = none := by
  intro fuel
  induction fuel with
  | zero => intro p _; rfl
  | succ fuel ih =>
    intro p h
    simp only [scanFrom, h p (Nat.le_refl p)]
    exact ih (p + 1) (fun q hq => h q (by omega))

/-- On newline-free input, `tab_search` reduces to: the leading
horizontal-whitespace run if there is one. -/
theorem tabSearch_no_newline {r : List Char} (h : '\n' ∉ r) :
    tabSearch r =
      (if startsWithHws r then some (r.takeWhile isHws) else none) := by
  by_cases hs : startsWithHws r = true
  · rw [if_pos hs]
    have h0 : 0 < hwsRun r 0 := by
      cases r with
      | nil => simp [startsWithHws] at hs
      | cons c cs =>
        simp only [startsWithHws] at hs
        simp [hwsRun, List.takeWhile, hs]
    unfold tabSearch
    have : r.length + 1 = r.length + 1 := rfl
    cases hl : r.length + 1 with
    | zero => omega
    | succ n =>
      simp only [scanFrom, lineStart]
      rw [if_pos]
      · simp [hwsRun]
      · constructor
        · simp
        · exact h0
  · rw [if_neg hs]
    apply scanFrom_none
    intro q hq
    rcases Nat.eq_zero_or_pos q with rfl | hqpos
    · have h0 : hwsRun r 0 = 0 := by
        cases r with
        | nil => simp [hwsRun]
        | cons c cs =>
          simp only [startsWithHws, Bool.not_eq_true] at hs
          simp [hwsRun, List.takeWhile, hs]
      rw [if_neg]
      rintro ⟨-, habs⟩
      omega
    · rw [if_neg]
      rintro ⟨hls, -⟩
      simp only [lineStart, Bool.or_eq_true, decide_eq_true_eq] at hls
      rcases hls with h1 | h1
      · omega
      · exact h (List.get?_mem h1)

/-- **C4** (amended) — the analyzer raises exactly when the tab stack is
matched only partially and extra whitespace remains after the divergence
(first conjunct, for real lines, which contain no newline), and a line
with no leading whitespace on an empty stack yields delta 0 (second
conjunct).  The error itself is the constant
`ValueError("indentation error")`: it is raised while processing the
offending line but does not identify it (see the counterexample). -/
theorem indentation_failure_iff :
    (∀ (line : List Char) (tabs : List (List Char)), '\n' ∉ line →
      (tab_match line tabs = Except.error "indentation error" ↔
        specIndentFailure line tabs)) ∧
    (∀ line : List Char, '\n' ∉ line → startsWithHws line = false →
      indentsGo [] 0 [line] [] = Except.ok [(0, 0)]) := by
  constructor
  · intro line tabs hnl
    have hcnt := tabLoop_length_eq_spec line tabs
    have hres := tabLoop_residual_eq_spec line tabs
    obtain ⟨h1, h2, h3, h4, h5⟩ := tabLoop_props tabs line
    have hnl2 : '\n' ∉ (tabLoop line tabs).2 := by
      rw [h5]
      intro hmem
      exact hnl (List.drop_subset _ _ hmem)
    have hfull_iff : (tabLoop line tabs).1 = tabs ↔
        specMatchedCount line tabs = tabs.length := by
      constructor
      · intro hf; rw [← hcnt, hf]
      · intro hf; rw [h1, hcnt, hf, List.take_length]
    simp only [tab_match]
    rw [tabSearch_no_newline hnl2]
    by_cases hs : startsWithHws ((tabLoop line tabs).2) = true
    · rw [if_pos hs]
      cases hM2 : (tabLoop line tabs).2 with
      | nil => rw [hM2] at hs; simp [startsWithHws] at hs
      | cons c cs =>
        rw [hM2] at hs
        simp only [startsWithHws] at hs
        have htw : (c :: cs).takeWhile isHws = c :: cs.takeWhile isHws := by
          simp [List.takeWhile_cons, hs]
        rw [htw]
        by_cases hfull : (tabLoop line tabs).1 = tabs
        · rw [if_pos (Or.inl hfull)]
          constructor
          · intro habs; cases habs
          · rintro ⟨hne, -⟩
            exact absurd (hfull_iff.1 hfull) hne
        · have hcond : ¬((tabLoop line tabs).1 = tabs ∨
              pyFalsy (some (c :: cs.takeWhile isHws)) = true) := by
            rintro (hbad | hbad)
            · exact hfull hbad
            · simp [pyFalsy] at hbad
          rw [if_neg hcond]
          constructor
          · intro _
            refine ⟨fun hbad => hfull (hfull_iff.2 hbad), ?_⟩
            rw [← hres, hM2]
            simp only [startsWithHws]
            exact hs
          · intro _
            rfl
    · rw [if_neg hs]
      rw [if_pos (Or.inr (by rfl))]
      refine iff_of_false (fun habs => by cases habs) ?_
      rintro ⟨-, hbad⟩
      rw [← hres] at hbad
      exact absurd hbad hs
  · intro line hnl hz
    have htm : tab_match line [] = Except.ok ([], none) := by
      simp only [tab_match]
      rw [show tabLoop line [] = ([], line) from rfl]
      rw [tabSearch_no_newline hnl]
      rw [if_pos (Or.inl rfl)]
      rw [if_neg (by simp [hz])]
    simp only [indentsGo]
    rw [if_neg (List.not_mem_nil 0)]
    rw [htm]
    rfl

/-- Witness for the amended C4: scenario D's second line against the
first line's space indent raises, and a flush-left line on an empty
stack yields delta 0. -/
theorem indentation_failure_iff_witness :
    tab_match (str "\t b") [str "  "] = Except.error "indentation error" ∧
    indentsGo [] 0 [str "y"] [] = Except.ok [(0, 0)] :=
  ⟨(indentation_failure_iff.1 (str "\t b") [str "  "] (by decide)).mpr (by decide),
   indentation_failure_iff.2 (str "y") (by decide) (by decide)⟩

/-- **C4** (counterexample) — the raised error cannot identify the
offending line: two inputs whose offending lines differ (the second
line of the first text, the third line of the second) raise the very
same constant `ValueError("indentation error")`. -/
theorem indentation_error_is_anonymous :
    indents (str "  a\n\t b\n") = Except.error "indentation error" ∧
    indents (str "x\n  a\n\t b\n") = Except.error "indentation error" :=
  ⟨rfl, rfl⟩

/-!
## C6: lines suppressed per atom kind
-/

/-- Every line contributed by an atom of the scanned stream is in the
suppression result. -/
theorem skipGo_mem (t : List Char) :
    ∀ (items : List Item) (s : List Nat) (symbol : String) (a b : Nat)
      (sl el : Nat × Nat),
      skipGo t items = some s → (symbol, a, b) ∈ items →
      locCall t a = some sl → locCall t b = some el →
      ∀ x ∈ contribution symbol sl el, x ∈ s := by
  intro items
  induction items with
  | nil =>
    intro s symbol a b sl el hgo hmem
    cases hmem
  | cons hd rest ih =>
    intro s symbol a b sl el hgo hmem hsl hel x hx
    obtain ⟨sym0, a0, b0⟩ := hd
    simp only [skipGo, Option.bind_eq_bind, bind, Option.bind] at hgo
    cases hsl0 : locCall t a0 with
    | none => rw [hsl0] at hgo; cases hgo
    | some sl0 =>
      rw [hsl0] at hgo
      cases hel0 : locCall t b0 with
      | none => rw [hel0] at hgo; cases hgo
      | some el0 =>
        rw [hel0] at hgo
        cases hrest : skipGo t rest with
        | none => rw [hrest] at hgo; cases hgo
        | some ls =>
          rw [hrest] at hgo
          have hs : s = contribution sym0 sl0 el0 ++ ls := by
            cases hgo; rfl
          subst hs
          rcases List.mem_cons.1 hmem with heq | hmem2
          · have h1 : sym0 = symbol := (congrArg Prod.fst heq).symm
            have h2 : a0 = a := (congrArg (fun z : Item => z.2.1) heq).symm
            have h3 : b0 = b := (congrArg (fun z : Item => z.2.2) heq).symm
            subst h1; subst h2; subst h3
            rw [hsl] at hsl0
            rw [hel] at hel0
            injection hsl0 with hsl0
            injection hel0 with hel0
            subst hsl0; subst hel0
            exact List.mem_append_left _ hx
          · exact List.mem_append_right _
              (ih ls symbol a b sl el hrest hmem2 hsl hel x hx)

/-- **C6** — for every atom of the scanned stream: a BLANKLINE atom
suppresses its own (start) line, a LINECONT atom the line after its
start, and a STRING or merged-bracket atom every line from the line
after its start line through its end line inclusive.  Concretely, for
the text with a triple-quoted string spanning lines 1–4, lines 2–4 are
suppressed while line 1's leading whitespace still yields the `+1`
indent event at line 1 (and line 5 dedents). -/
theorem line_suppressor_per_kind :
    (∀ (t : List Char) (s : List Nat) (symbol : String) (a b : Nat)
        (sl el : Nat × Nat),
      skipLines t = some s → (symbol, a, b) ∈ scan t →
      locCall t a = some sl → locCall t b = some el →
      (symbol = "BLANKLINE" → sl.1 ∈ s) ∧
      (symbol = "LINECONT" → sl.1 + 1 ∈ s) ∧
      ((symbol = "STRING" ∨ symbol = "()" ∨ symbol = "[]" ∨ symbol = "{}") →
        ∀ ln, sl.1 + 1 ≤ ln → ln ≤ el.1 → ln ∈ s)) ∧
    skipLines (str "x\n    s = \"\"\"\na\nb\n\"\"\"\ny\n") = some [2, 3, 4] ∧
    indents (str "x\n    s = \"\"\"\na\nb\n\"\"\"\ny\n") =
      Except.ok [(0, 0), (1, 1), (5, -1), (6, 0)] := by
  refine ⟨?_, by decide, by rfl⟩
  intro t s symbol a b sl el hsk hmem hsl hel
  have hall := skipGo_mem t (scan t) s symbol a b sl el hsk hmem hsl hel
  refine ⟨?_, ?_, ?_⟩
  · intro hsym
    subst hsym
    apply hall
    simp [contribution]
  · intro hsym
    subst hsym
    apply hall
    simp [contribution]
  · intro hsym ln hln1 hln2
    apply hall
    rcases hsym with hsym | hsym | hsym | hsym <;> subst hsym <;>
      simp [contribution, List.mem_range'_1] <;> omega

/-- Witness for C6 at the scenario text: the STRING atom spans offsets
10–21 (lines 1–4), and lines 2, 3 and 4 are all suppressed. -/
theorem line_suppressor_per_kind_witness :
    2 ∈ [2, 3, 4] ∧ 3 ∈ [2, 3, 4] ∧ 4 ∈ [2, 3, 4] := by
  have h := (line_suppressor_per_kind.1 (str "x\n    s = \"\"\"\na\nb\n\"\"\"\ny\n")
    [2, 3, 4] "STRING" 10 21 (1, 8) (4, 3) (by decide)
    (by decide) (by decide) (by decide)).2.2 (Or.inl rfl)
  exact ⟨h 2 (by decide) (by decide), h 3 (by decide) (by decide),
    h 4 (by decide) (by decide)⟩

/-!
## C2: what pre-order concatenation of the source slices yields

The stack discipline of `make_tree` makes the pre-order traversal of the
final tree list the nodes in creation order; each node's `source` is the
newline-join of a contiguous range of lines, and the ranges are
consecutive.  Concatenating the slices therefore reproduces every line
exactly once, in order — but drops the newline at each range boundary,
so the byte-for-byte round trip of the claim fails.
-/

/-- The pre-order infos of a stack entry viewed as a finished subtree. -/
def stackPre (it : StackItem) : List Info :=
  it.1 :: preorderList it.2

/-- Pre-order infos of a whole stack, bottom of the stack first. -/
def revFlat (s : List StackItem) : List Info :=
  (s.reverse.map stackPre).flatten

/-- Project infos to the `(lineno, source)` pairs the claim is about. -/
def pairsOf (l : List Info) : List (Nat × List Char) :=
  l.map (fun i => (i.lineno, i.source))

/-- The consecutive line ranges cut by the event linenos: one range per
node, from `prev` to the next event's line, the last one ending at the
line count. -/
def contRanges (n : Nat) : Nat → List (Nat × Int) → List (Nat × Nat)
  | prev, [] => [(prev, n)]
  | prev, (l, _) :: evs => (prev, l) :: contRanges n l evs

/-- The `(lineno, source)` pairs make_tree should produce: each range's
start line paired with the newline-join of its lines. -/
def contPairs (lines : List (List Char)) (prev : Nat)
    (evs : List (Nat × Int)) : List (Nat × List Char) :=
  (contRanges lines.length prev evs).map
    (fun r => (r.1, joinNL (sliceList lines r.1 r.2)))

/-- `Except`'s bind on a success value. -/
theorem except_bind_ok {ε α β : Type} (a : α) (f : α → Except ε β) :
    (Except.ok a >>= f) = f a := rfl

/-- `Except`'s bind on an error value. -/
theorem except_bind_err {ε α β : Type} (e : ε) (f : α → Except ε β) :
    ((Except.error e : Except ε α) >>= f) = Except.error e := rfl

theorem preorderList_append : ∀ (xs ys : List Node),
    preorderList (xs ++ ys) = preorderList xs ++ preorderList ys := by
  intro xs ys
  induction xs with
  | nil => rfl
  | cons n ns ih =>
    simp only [List.cons_append, preorderList]
    rw [List.append_assoc]
    exact congrArg (fun z => preorder n ++ z) ih

theorem stackPre_attach (t u : StackItem) :
    stackPre (attach t u) = stackPre u ++ stackPre t := by
  simp only [stackPre, attach, preorderList_append, preorderList]
  simp [preorder]

theorem revFlat_cons (it : StackItem) (rest : List StackItem) :
    revFlat (it :: rest) = revFlat rest ++ stackPre it := by
  simp [revFlat]

theorem revFlat_foldN : ∀ (n : Nat) (s s' : List StackItem),
    foldN n s = Except.ok s' → revFlat s' = revFlat s := by
  intro n
  induction n with
  | zero =>
    intro s s' h
    cases h
    rfl
  | succ n ih =>
    intro s s' h
    match s with
    | [] => cases h
    | [t] => cases h
    | t :: u :: rest =>
      have := ih (attach t u :: rest) s' h
      rw [this, revFlat_cons, revFlat_cons, revFlat_cons, stackPre_attach,
        List.append_assoc]

theorem foldAll_preorder : ∀ (rest : List StackItem) (t : StackItem),
    preorder (foldAll t rest) = revFlat (t :: rest) := by
  intro rest
  induction rest with
  | nil =>
    intro t
    rw [revFlat_cons]
    simp [foldAll, preorder, stackPre, revFlat]
  | cons u us ih =>
    intro t
    rw [show foldAll t (u :: us) = foldAll (attach t u) us from rfl, ih,
      revFlat_cons, revFlat_cons, revFlat_cons, stackPre_attach,
      List.append_assoc]

/-- The event loop invariant: processing the remaining events from a
stack whose top is a freshly pushed node at line `prev` appends to the
already completed infos exactly one `(lineno, source)` pair per
remaining range. -/
theorem makeTreeGo_pairs (lines : List (List Char)) :
    ∀ (evs : List (Nat × Int)) (prev : Nat) (i : Info)
      (rest : List StackItem) (t : Node),
      i.lineno = prev →
      makeTreeGo lines evs prev ((i, []) :: rest) = Except.ok t →
      pairsOf (preorder t) = pairsOf (revFlat rest) ++ contPairs lines prev evs := by
  intro evs
  induction evs with
  | nil =>
    intro prev i rest t hline hgo
    simp only [makeTreeGo, setTopSource] at hgo
    cases hgo
    rw [foldAll_preorder, revFlat_cons]
    simp only [pairsOf, List.map_append, contPairs, contRanges, stackPre,
      preorderList, List.map_cons, List.map_nil]
    simp [hline]
  | cons ev evs2 ih =>
    obtain ⟨l, tab⟩ := ev
    intro prev i rest t hline hgo
    simp only [makeTreeGo, setTopSource] at hgo
    cases hfold : dedentFolds tab
        (({ i with source := joinNL (sliceList lines prev l) }, []) :: rest) with
    | error e => rw [hfold, except_bind_err] at hgo; cases hgo
    | ok s2 =>
      rw [hfold] at hgo
      simp only [except_bind_ok] at hgo
      have hrec := ih l ⟨l, (parse_declaration (lines.getD l [])).2,
        (parse_declaration (lines.getD l [])).1, []⟩ s2 t rfl hgo
      have hrev : revFlat s2 =
          revFlat (({ i with source := joinNL (sliceList lines prev l) }, []) :: rest) := by
        unfold dedentFolds at hfold
        by_cases hc : tab ≤ 0 ∧ 2 ≤
            ((({ i with source := joinNL (sliceList lines prev l) }, []) :: rest) :
              List StackItem).length
        · rw [if_pos hc] at hfold
          exact revFlat_foldN _ _ _ hfold
        · rw [if_neg hc] at hfold
          cases hfold
          rfl
      rw [hrec, hrev, revFlat_cons]
      simp only [pairsOf, List.map_append, contPairs, contRanges, stackPre,
        preorderList, List.map_cons, List.map_nil, List.append_assoc]
      simp [hline]

/-- Weaken the head of an ascending chain. -/
theorem chain_le_of_succ {i : Nat} {l : List Nat}
    (h : List.Chain (fun a b => a ≤ b) (i + 1) l) :
    List.Chain (fun a b => a ≤ b) i l := by
  cases l with
  | nil => exact List.Chain.nil
  | cons x xs =>
    rw [List.chain_cons] at h ⊢
    exact ⟨by omega, h.2⟩

/-- The event linenos of `indents` ascend from the starting index and
stay below it plus the number of lines. -/
theorem indentsGo_chain (skip : List Nat) :
    ∀ (ls : List (List Char)) (i : Nat) (tabs : List (List Char))
      (evs : List (Nat × Int)),
      indentsGo skip i ls tabs = Except.ok evs →
      List.Chain (fun a b => a ≤ b) i (evs.map Prod.fst) ∧
        ∀ p ∈ evs, p.1 < i + ls.length := by
  intro ls
  induction ls with
  | nil =>
    intro i tabs evs hgo
    cases hgo
    exact ⟨List.Chain.nil, by simp⟩
  | cons line rest ih =>
    intro i tabs evs hgo
    simp only [indentsGo] at hgo
    by_cases hskip : i ∈ skip
    · rw [if_pos hskip] at hgo
      obtain ⟨hch, hbd⟩ := ih (i + 1) tabs evs hgo
      refine ⟨chain_le_of_succ hch, fun p hp => ?_⟩
      have := hbd p hp
      simp only [List.length_cons]
      omega
    · rw [if_neg hskip] at hgo
      cases htm : tab_match line tabs with
      | error e => rw [htm, except_bind_err] at hgo; cases hgo
      | ok me =>
        rw [htm] at hgo
        simp only [except_bind_ok] at hgo
        cases hme : me.2 with
        | none =>
          simp only [hme] at hgo
          cases hrec : indentsGo skip (i + 1) rest (tabs.take me.1.length) with
          | error e => rw [hrec, except_bind_err] at hgo; cases hgo
          | ok evs2 =>
            rw [hrec] at hgo
            simp only [except_bind_ok] at hgo
            injection hgo with hgo
            subst hgo
            obtain ⟨hch, hbd⟩ := ih (i + 1) (tabs.take me.1.length) evs2 hrec
            refine ⟨?_, ?_⟩
            · rw [List.map_cons, List.chain_cons]
              exact ⟨Nat.le_refl i, chain_le_of_succ hch⟩
            · intro p hp
              rcases List.mem_cons.1 hp with rfl | hp2
              · simp only [List.length_cons]; omega
              · have := hbd p hp2
                simp only [List.length_cons]
                omega
        | some e =>
          cases e with
          | nil =>
            simp only [hme] at hgo
            cases hrec : indentsGo skip (i + 1) rest (tabs.take me.1.length) with
            | error e => rw [hrec, except_bind_err] at hgo; cases hgo
            | ok evs2 =>
              rw [hrec] at hgo
              simp only [except_bind_ok] at hgo
              injection hgo with hgo
              subst hgo
              obtain ⟨hch, hbd⟩ := ih (i + 1) (tabs.take me.1.length) evs2 hrec
              refine ⟨?_, ?_⟩
              · rw [List.map_cons, List.chain_cons]
                exact ⟨Nat.le_refl i, chain_le_of_succ hch⟩
              · intro p hp
                rcases List.mem_cons.1 hp with rfl | hp2
                · simp only [List.length_cons]; omega
                · have := hbd p hp2
                  simp only [List.length_cons]
                  omega
          | cons c cs =>
            simp only [hme] at hgo
            cases hrec : indentsGo skip (i + 1) rest (tabs ++ [c :: cs]) with
            | error e => rw [hrec, except_bind_err] at hgo; cases hgo
            | ok evs2 =>
              rw [hrec] at hgo
              simp only [except_bind_ok] at hgo
              injection hgo with hgo
              subst hgo
              obtain ⟨hch, hbd⟩ := ih (i + 1) (tabs ++ [c :: cs]) evs2 hrec
              refine ⟨?_, ?_⟩
              · rw [List.map_cons, List.chain_cons]
                exact ⟨Nat.le_refl i, chain_le_of_succ hch⟩
              · intro p hp
                rcases List.mem_cons.1 hp with rfl | hp2
                · simp only [List.length_cons]; omega
                · have := hbd p hp2
                  simp only [List.length_cons]
                  omega

/-- Consecutive ranges starting at `prev` and ending at the line count
flatten back to all the lines from `prev` on: no line dropped or
duplicated. -/
theorem contRanges_flatten (lines : List (List Char)) :
    ∀ (evs : List (Nat × Int)) (prev : Nat),
      List.Chain (fun a b => a ≤ b) prev (evs.map Prod.fst) →
      (∀ p ∈ evs, p.1 ≤ lines.length) →
      ((contRanges lines.length prev evs).map
        (fun r => sliceList lines r.1 r.2)).flatten = lines.drop prev := by
  intro evs
  induction evs with
  | nil =>
    intro prev hch hbd
    simp only [contRanges, List.map_cons, List.map_nil, List.flatten_cons,
      List.flatten_nil, List.append_nil, sliceList]
    have hlen : (lines.drop prev).length = lines.length - prev :=
      List.length_drop _ _
    exact List.take_of_length_le (le_of_eq hlen)
  | cons ev evs2 ih =>
    obtain ⟨l, d⟩ := ev
    intro prev hch hbd
    rw [List.map_cons, List.chain_cons] at hch
    simp only [contRanges, List.map_cons, List.flatten_cons]
    rw [ih l hch.2 (fun p hp => hbd p (List.mem_cons_of_mem _ hp))]
    have h1 : lines.drop l = (lines.drop prev).drop (l - prev) := by
      rw [List.drop_drop]
      congr 1
      have := hch.1
      omega
    rw [sliceList, h1, List.take_append_drop]

/-- **C2** (amended) — whenever `make_tree` returns a tree, the
pre-order `(lineno, source)` pairs are exactly one pair per consecutive
line range cut by the event linenos — each node's `source` is the
newline-join of its range — and those ranges flatten back to the
original line list: every line is reproduced exactly once, in order.
Plain concatenation of the slices drops the newline at each boundary, so
the byte-for-byte claim fails (see the counterexample). -/
theorem make_tree_line_partition (text : List Char) (evs : List (Nat × Int))
    (t : Node) (hind : indents text = Except.ok evs)
    (hmk : make_tree text = Except.ok t) :
    pairsOf (preorder t) = contPairs (splitNL text) 0 evs ∧
    ((contRanges (splitNL text).length 0 evs).map
      (fun r => sliceList (splitNL text) r.1 r.2)).flatten = splitNL text := by
  have hgo : makeTreeGo (splitNL text) evs 0 [(⟨0, none, none, []⟩, [])] =
      Except.ok t := by
    unfold make_tree at hmk
    rw [hind, except_bind_ok] at hmk
    exact hmk
  constructor
  · have h2 := makeTreeGo_pairs (splitNL text) evs 0 ⟨0, none, none, []⟩ [] t
      rfl hgo
    rw [show revFlat ([] : List StackItem) = [] from rfl] at h2
    simpa using h2
  · unfold indents at hind
    cases hsk : skipLines text with
    | none => rw [hsk] at hind; cases hind
    | some skip =>
      rw [hsk] at hind
      obtain ⟨hch, hbd⟩ := indentsGo_chain skip (splitNL text) 0 [] evs hind
      have h := contRanges_flatten (splitNL text) evs 0 hch
        (fun p hp => by have := hbd p hp; omega)
      simpa using h

/-- Witness for the amended C2 on `"x\ny"`: the tree's pre-order pairs
are the ranges `[0,0)`, `[0,1)`, `[1,2)` with their joined lines, and
the ranges flatten back to the two lines. -/
theorem make_tree_line_partition_witness :
    pairsOf (preorder (Node.mk ⟨0, none, none, []⟩
      [Node.mk ⟨0, none, none, str "x"⟩ [],
       Node.mk ⟨1, none, none, str "y"⟩ []])) =
      contPairs (splitNL (str "x\ny")) 0 [(0, 0), (1, 0)] ∧
    ((contRanges (splitNL (str "x\ny")).length 0 [(0, 0), (1, 0)]).map
      (fun r => sliceList (splitNL (str "x\ny")) r.1 r.2)).flatten =
      splitNL (str "x\ny") :=
  make_tree_line_partition (str "x\ny") [(0, 0), (1, 0)]
    (Node.mk ⟨0, none, none, []⟩
      [Node.mk ⟨0, none, none, str "x"⟩ [],
       Node.mk ⟨1, none, none, str "y"⟩ []])
    (by exact rfl) (by exact rfl)

/-- **C2** (counterexample) — concatenating the pre-order source slices
of the tree of `"x\ny"` yields `"xy"`, not `"x\ny"`: the newline at the
node boundary is dropped, refuting the byte-for-byte round trip. -/
theorem preorder_concat_not_roundtrip :
    (make_tree (str "x\ny")).map concatSources = Except.ok (str "xy") ∧
    ¬ (str "xy" = str "x\ny") := ⟨rfl, by decide⟩

/-- **C9** (counterexample) — the claim says the root has exactly one
child; the code produces two (the `f` node and a trailing empty node for
the final blank line). -/
theorem scenario_a_root_has_two_children :
    (make_tree (str "def f():\n    pass\n")).map (fun t => t.children.length) =
      Except.ok 2 ∧ (2 : Nat) ≠ 1 := ⟨rfl, by decide⟩

/-- **C9** (amended) — the exact tree for `"def f():\n    pass\n"`: a
root with two children; the first is `name="f"`, `kind=function`, but its
`source` is only the first line, its body `"    pass"` hanging below it
as an unnamed child; the second is a trailing empty unnamed node at
line 2. -/
theorem scenario_a_exact_tree :
    make_tree (str "def f():\n    pass\n") =
      Except.ok (Node.mk ⟨0, none, none, []⟩
        [Node.mk ⟨0, some (str "f"), some "function", str "def f():"⟩
          [Node.mk ⟨1, none, none, str "    pass"⟩ []],
         Node.mk ⟨2, none, none, []⟩ []]) := rfl

/-!
## C3: dedent fold count
-/

/-- `n` successful folds shorten the stack by exactly `n`. -/
theorem foldN_length : ∀ (n : Nat) (s s' : List StackItem),
    foldN n s = Except.ok s' → s'.length + n = s.length := by
  intro n
  induction n with
  | zero =>
    intro s s' h
    cases h
    rfl
  | succ n ih =>
    intro s s' h
    match s with
    | [] => cases h
    | [t] => cases h
    | t :: u :: rest =>
      have := ih (attach t u :: rest) s' h
      simp only [List.length_cons] at this ⊢
      omega

/-- **C3** (counterexample) — on a stack of four open items, the fold
phase of an event with `delta = -2` leaves one item, having folded three
nodes; the claim's "exactly two" would have left two. -/
theorem dedent_minus_two_folds_three :
    dedentFolds (-2)
        (List.replicate 4 ((⟨0, none, none, []⟩ : Info), ([] : List Node))) =
      Except.ok [(⟨0, none, none, []⟩,
        [Node.mk ⟨0, none, none, []⟩ [Node.mk ⟨0, none, none, []⟩
          [Node.mk ⟨0, none, none, []⟩ []]]])] ∧
    ¬ ([(((⟨0, none, none, []⟩ : Info),
        ([Node.mk ⟨0, none, none, []⟩ [Node.mk ⟨0, none, none, []⟩
          [Node.mk ⟨0, none, none, []⟩ []]]] : List Node)))].length = 4 - 2) :=
  ⟨rfl, by decide⟩

/-- **C3** (amended) — whenever an event has `delta ≤ 0` and more than
one node is open, and the folds succeed, exactly `1 - delta` folds are
performed (the stack shrinks by `1 - delta`); in particular a dedent by
two levels in one step (`delta = -2`) folds exactly *three* open nodes
before the new sibling is pushed. -/
theorem dedent_folds_count (tab : Int) (s s' : List StackItem)
    (h0 : tab ≤ 0) (h2 : 2 ≤ s.length)
    (h : dedentFolds tab s = Except.ok s') :
    s'.length + (1 - tab).toNat = s.length ∧
      (tab = -2 → s'.length + 3 = s.length) := by
  unfold dedentFolds at h
  rw [if_pos ⟨h0, h2⟩] at h
  have hl := foldN_length _ _ _ h
  refine ⟨hl, fun htab => ?_⟩
  subst htab
  simpa using hl

/-- Witness for the amended C3 at a concrete four-item stack and
`delta = -2`: the fold phase shrinks the stack from 4 to 1. -/
theorem dedent_folds_count_witness :
    ([((⟨0, none, none, []⟩ : Info),
        ([Node.mk ⟨0, none, none, []⟩ [Node.mk ⟨0, none, none, []⟩
          [Node.mk ⟨0, none, none, []⟩ []]]] : List Node))]).length + 3 =
      (List.replicate 4 ((⟨0, none, none, []⟩ : Info), ([] : List Node))).length :=
  (dedent_folds_count (-2)
    (List.replicate 4 ((⟨0, none, none, []⟩ : Info), ([] : List Node)))
    [((⟨0, none, none, []⟩ : Info),
        ([Node.mk ⟨0, none, none, []⟩ [Node.mk ⟨0, none, none, []⟩
          [Node.mk ⟨0, none, none, []⟩ []]]] : List Node))]
    (by decide) (by decide) (by exact rfl)).2 rfl

end Docgen
